import Mathlib

/-!
Verification of the panoramisk manager-protocol client core
(`panoramisk/manager.py`) against its natural-language specification.

The embedding models text as `List Char` and byte streams as `List Nat`.
Components whose source is not part of the repository snapshot
(`panoramisk/message.py`, `panoramisk/actions.py`, `panoramisk/utils.py`)
are modelled from the specification; each such definition carries a doc
comment starting with `Modelled from the spec:`.
-/

namespace Panoramisk

/-- Text is modelled as a list of characters. -/
abbrev Str := List Char

/-- Modelled from the spec: `utils.EOL`, the protocol line terminator
(the wire format is CRLF-delimited). -/
def EOL : Str := ['\r', '\n']

/-- The protocol block delimiter: two consecutive line terminators
(`utils.EOL + utils.EOL` in `Connection.data_received`). -/
def blockDelim : Str := EOL ++ EOL

/-- `startsWith d s` is true when `d` is an initial segment of `s`
(embedding of the anchored match used when scanning for a delimiter). -/
def startsWith (d s : Str) : Bool := s.take d.length == d

/-- Embedding of Python `str.split(sep)` for a non-empty separator:
greedy left-to-right split on the first occurrence of `d`.  For `d = []`
the whole string is returned unsplit (Python raises there; the protocol
delimiter is never empty). -/
def splitOnL (d : Str) : Str → List Str
  | [] => [[]]
  | c :: cs =>
    if h : d ≠ [] ∧ startsWith d (c :: cs) = true then
      [] :: splitOnL d ((c :: cs).drop d.length)
    else
      match splitOnL d cs with
      | [] => [[c]]
      | f :: fs => (c :: f) :: fs
termination_by s => s.length
decreasing_by
  · have hd : 0 < d.length := List.length_pos.mpr h.1
    simp only [List.length_drop, List.length_cons]
    omega
  · simp [Nat.lt_succ_self]

/-- Lowercasing, for the protocol's case-insensitive field names. -/
def lower (s : Str) : Str := s.map Char.toLower

/-- Embedding of Python `str.strip()`: remove leading and trailing
whitespace. -/
def strip (s : Str) : Str :=
  ((s.dropWhile Char.isWhitespace).reverse.dropWhile Char.isWhitespace).reverse

/-- `breakOn d s` finds the first occurrence of `d` in `s` and returns the
text before and after it (embedding of Python `str.split(sep, 1)`). -/
def breakOn (d : Str) : Str → Option (Str × Str)
  | [] => none
  | c :: cs =>
    if startsWith d (c :: cs) then some ([], (c :: cs).drop d.length)
    else (breakOn d cs).map (fun pr => (c :: pr.1, pr.2))

lemma splitOnL_nil (d : Str) : splitOnL d [] = [[]] := by
  simp [splitOnL]

lemma splitOnL_cons_pos {d : Str} {c : Char} {cs : Str}
    (h1 : d ≠ []) (h2 : startsWith d (c :: cs) = true) :
    splitOnL d (c :: cs) = [] :: splitOnL d ((c :: cs).drop d.length) := by
  rw [splitOnL]
  rw [dif_pos ⟨h1, h2⟩]

lemma splitOnL_cons_neg {d : Str} {c : Char} {cs f : Str} {fs : List Str}
    (h : ¬(d ≠ [] ∧ startsWith d (c :: cs) = true))
    (hs : splitOnL d cs = f :: fs) :
    splitOnL d (c :: cs) = (c :: f) :: fs := by
  rw [splitOnL]
  rw [dif_neg h, hs]

theorem splitOnL_ne_nil (d : Str) : ∀ (s : Str), splitOnL d s ≠ []
  | [] => by simp [splitOnL_nil]
  | c :: cs => by
    by_cases h : d ≠ [] ∧ startsWith d (c :: cs) = true
    · rw [splitOnL_cons_pos h.1 h.2]; simp
    · cases hs : splitOnL d cs with
      | nil => exact absurd hs (splitOnL_ne_nil d cs)
      | cons f fs => rw [splitOnL_cons_neg h hs]; simp

lemma splitOnL_empty_delim : ∀ (s : Str), splitOnL [] s = [s]
  | [] => by simp [splitOnL_nil]
  | c :: cs => by
    have h : ¬(([] : Str) ≠ [] ∧ startsWith [] (c :: cs) = true) := by simp
    rw [splitOnL_cons_neg h (splitOnL_empty_delim cs)]

lemma startsWith_le_length {d s : Str} (h : startsWith d s = true) :
    d.length ≤ s.length := by
  unfold startsWith at h
  have he : s.take d.length = d := by
    exact eq_of_beq h
  have := congrArg List.length he
  simp [List.length_take] at this
  omega

lemma startsWith_append {d s : Str} (t : Str) (h : d.length ≤ s.length) :
    startsWith d (s ++ t) = startsWith d s := by
  unfold startsWith
  rw [List.take_append_of_le_length h]

lemma splitOnL_short (d : Str) : ∀ (s : Str), s.length < d.length → splitOnL d s = [s]
  | [], _ => by simp [splitOnL_nil]
  | c :: cs, h => by
    have hsw : ¬(d ≠ [] ∧ startsWith d (c :: cs) = true) := by
      rintro ⟨-, hsw⟩
      exact absurd (startsWith_le_length hsw) (by omega)
    have ih := splitOnL_short d cs (by simp at h ⊢; omega)
    rw [splitOnL_cons_neg hsw ih]

theorem splitOnL_singleton (d : Str) : ∀ (s f : Str), splitOnL d s = [f] → f = s
  | [], f, h => by
    rw [splitOnL_nil] at h
    exact (List.cons.injEq _ _ _ _ ▸ h).1.symm
  | c :: cs, f, h => by
    by_cases hc : d ≠ [] ∧ startsWith d (c :: cs) = true
    · rw [splitOnL_cons_pos hc.1 hc.2] at h
      have : splitOnL d ((c :: cs).drop d.length) = [] := (List.cons.injEq _ _ _ _ ▸ h).2
      exact absurd this (splitOnL_ne_nil d _)
    · cases hs : splitOnL d cs with
      | nil => exact absurd hs (splitOnL_ne_nil d cs)
      | cons f2 fs2 =>
        rw [splitOnL_cons_neg hc hs] at h
        obtain ⟨h1, h2⟩ := List.cons.injEq _ _ _ _ ▸ h
        subst h2
        have := splitOnL_singleton d cs f2 hs
        subst this
        exact h1.symm

lemma getLastD_irrel {α : Type} {l : List α} (h : l ≠ []) (a b : α) :
    l.getLastD a = l.getLastD b := by
  cases l with
  | nil => exact absurd rfl h
  | cons x xs => rw [List.getLastD_cons, List.getLastD_cons]

theorem splitOnL_append (d : Str) : ∀ (s t : Str),
    splitOnL d (s ++ t) =
      (splitOnL d s).dropLast ++ splitOnL d ((splitOnL d s).getLastD [] ++ t)
  | [], t => by simp [splitOnL_nil]
  | c :: cs, t => by
    by_cases hc : d ≠ [] ∧ startsWith d (c :: cs) = true
    · -- the delimiter matches at the head of s
      have hd : d ≠ [] := hc.1
      have hlen : d.length ≤ (c :: cs).length := startsWith_le_length hc.2
      have hswt : startsWith d ((c :: cs) ++ t) = true := by
        rw [startsWith_append t hlen]; exact hc.2
      have hdrop : ((c :: cs) ++ t).drop d.length = (c :: cs).drop d.length ++ t :=
        List.drop_append_of_le_length hlen
      have hlhs : splitOnL d ((c :: cs) ++ t)
          = [] :: splitOnL d ((c :: cs).drop d.length ++ t) := by
        rw [show (c :: cs) ++ t = c :: (cs ++ t) from rfl] at hswt ⊢
        rw [splitOnL_cons_pos hd hswt]
        rw [show c :: (cs ++ t) = (c :: cs) ++ t from rfl, hdrop]
      have ih := splitOnL_append d ((c :: cs).drop d.length) t
      have hL := splitOnL_ne_nil d ((c :: cs).drop d.length)
      rw [hlhs, ih, splitOnL_cons_pos hd hc.2]
      cases hLs : splitOnL d ((c :: cs).drop d.length) with
      | nil => exact absurd hLs hL
      | cons f fs =>
        simp [List.getLastD_cons]
    · -- no delimiter at the head of s
      by_cases hd : d = []
      · subst hd
        simp [splitOnL_empty_delim]
      · by_cases hlen : (c :: cs).length < d.length
        · rw [splitOnL_short d _ hlen]
          simp
        · push_neg at hlen
          have hswf : startsWith d (c :: cs) = false := by
            cases h1 : startsWith d (c :: cs) with
            | false => rfl
            | true => exact absurd ⟨hd, h1⟩ hc
          have hct : ¬(d ≠ [] ∧ startsWith d (c :: (cs ++ t)) = true) := by
            rintro ⟨-, hsw⟩
            rw [show c :: (cs ++ t) = (c :: cs) ++ t from rfl,
              startsWith_append t hlen, hswf] at hsw
            exact Bool.false_ne_true hsw
          cases hs : splitOnL d cs with
          | nil => exact absurd hs (splitOnL_ne_nil d cs)
          | cons f fs =>
            have ih := splitOnL_append d cs t
            cases fs with
            | nil =>
              -- a single fragment: cs contains no delimiter occurrence
              have hfcs : f = cs := splitOnL_singleton d cs f hs
              subst hfcs
              rw [splitOnL_cons_neg hc hs]
              simp
            | cons g gs =>
              obtain ⟨x, hx⟩ : ∃ x, (g :: gs).getLast? = some x :=
                Option.isSome_iff_exists.mp (List.getLast?_isSome.mpr (by simp))
              rw [hs] at ih
              simp only [List.dropLast_cons₂, List.getLastD_eq_getLast?,
                List.getLast?_cons_cons, hx, Option.getD_some, List.cons_append] at ih
              have hlhs := splitOnL_cons_neg hct ih
              rw [show (c :: cs) ++ t = c :: (cs ++ t) from rfl, hlhs,
                splitOnL_cons_neg hc hs]
              simp only [List.dropLast_cons₂, List.getLastD_eq_getLast?,
                List.getLast?_cons_cons, hx, Option.getD_some, List.cons_append]
termination_by s _ => s.length
decreasing_by
  · have h1 : 0 < d.length := List.length_pos.mpr hd
    simp only [List.length_drop, List.length_cons]
    omega
  · simp [Nat.lt_succ_self]

theorem splitOnL_getLastD_stable (d : Str) : ∀ (s : Str),
    splitOnL d ((splitOnL d s).getLastD []) = [(splitOnL d s).getLastD []]
  | [] => by simp [splitOnL_nil]
  | c :: cs => by
    by_cases hc : d ≠ [] ∧ startsWith d (c :: cs) = true
    · rw [splitOnL_cons_pos hc.1 hc.2, List.getLastD_cons]
      exact splitOnL_getLastD_stable d ((c :: cs).drop d.length)
    · cases hs : splitOnL d cs with
      | nil => exact absurd hs (splitOnL_ne_nil d cs)
      | cons f fs =>
        have ih := splitOnL_getLastD_stable d cs
        rw [hs] at ih
        rw [splitOnL_cons_neg hc hs]
        cases fs with
        | nil =>
          have hfcs : f = cs := splitOnL_singleton d cs f hs
          subst hfcs
          simp only [List.getLastD_cons, List.getLastD_nil]
          exact splitOnL_cons_neg hc hs
        | cons g gs =>
          simpa [List.getLastD_cons] using ih
termination_by s => s.length
decreasing_by
  · have h1 : 0 < d.length := List.length_pos.mpr hc.1
    simp only [List.length_drop, List.length_cons]
    omega
  · simp [Nat.lt_succ_self]

/-- Modelled from the spec: a Message is an ordered mapping from
case-insensitive field name to string value, built from one decoded block
(`panoramisk/message.py` is not in the snapshot).  The `manager` component
models the dynamic attribute that `Manager.dispatch` sets on an event
(`event.manager = self`), identifying the Manager object; it is `none`
when the Message is built by the decoder. -/
structure Msg where
  fields : List (Str × Str)
  manager : Option Nat
deriving DecidableEq

/-- Case-insensitive field lookup on a Message. -/
def Msg.getField (m : Msg) (k : Str) : Option Str :=
  (m.fields.find? (fun e => lower e.1 == lower k)).map (fun e => e.2)

/-- Modelled from the spec: case-insensitive membership test
(`'Event' in message`). -/
def Msg.hasField (m : Msg) (k : Str) : Bool :=
  m.fields.any (fun e => lower e.1 == lower k)

/-- Modelled from the spec: `message.id`, the correlation identifier
(the ActionID field), if present. -/
def Msg.id (m : Msg) : Option Str := m.getField ("ActionID".toList)

/-- Modelled from the spec: `message.event`, the event name; empty when
the Event field is absent. -/
def Msg.event (m : Msg) : Str := (m.getField ("Event".toList)).getD []

/-- Modelled from the spec: the success derivation — the status field
(`Response`) compared case-insensitively against the accepted success
tokens; per the repository's tests a Message without a status field counts
as successful (`Message.from_line('Event: PeerStatus').success is True`). -/
def Msg.success (m : Msg) : Bool :=
  match m.getField ("Response".toList) with
  | some v => lower v == ("success".toList) || lower v == ("follows".toList)
  | none => true

/-- Parse one `Key: Value` line: the value is the remainder of the line
after the first colon-space; lines without one yield no field. -/
def parseField (l : Str) : Option (Str × Str) := breakOn ([':', ' ']) l

/-- Modelled from the spec: the Message Decoder (`Message.from_line`).
An empty (already stripped) block is skipped (`None`); otherwise each
EOL-separated line is parsed as `Key: Value`. -/
def Message.from_line (line : Str) : Option Msg :=
  if line.isEmpty then none
  else some ⟨(splitOnL EOL line).filterMap parseField, none⟩

/-- Modelled from the spec: an Action — one outstanding request with its
identifier, list-mode flag and accumulated response Messages
(`panoramisk/actions.py` is not in the snapshot). -/
structure Action where
  id : Str
  as_list : Bool
  messages : List Msg
deriving DecidableEq

/-- Modelled from the spec: the list-completion marker — a companion
event whose name marks the end of a list response. -/
def isListEnd (m : Msg) : Bool :=
  List.isSuffixOf ("complete".toList) (lower (Msg.event m))

/-- Modelled from the spec: `Action.add_message` — the accumulation step.
Appends the Message; reports completion immediately for a non-list Action,
and on the list-completion marker for a list-mode Action. -/
def Action.add_message (a : Action) (m : Msg) : Action × Bool :=
  let a2 : Action := { a with messages := a.messages ++ [m] }
  if a.as_list then (a2, isListEnd m) else (a2, true)

/-- The pending-Action table (`Connection.responses`), a dict keyed by
identifier, in insertion order. -/
abbrev Table := List (Str × Action)

/-- Lookup by key: the first entry with key `k` (`dict.get(k)`). -/
def tableGetK : Table → Str → Option Action
  | [], _ => none
  | e :: t, k => if e.1 == k then some e.2 else tableGetK t k

/-- `dict.get(k)` for an optional key: a Message without an identifier
matches nothing. -/
def tableGet (t : Table) : Option Str → Option Action
  | none => none
  | some k => tableGetK t k

/-- In-place update of the Action object stored under key `k` (the Python
code mutates the Action; the dict entry keeps referring to it). -/
def tableSet : Table → Str → Action → Table
  | [], _, _ => []
  | e :: t, k, a => if e.1 == k then (k, a) :: tableSet t k a else e :: tableSet t k a

/-- `dict.pop(k)`: remove the entry with key `k`. -/
def tablePop : Table → Str → Table
  | [], _ => []
  | e :: t, k => if e.1 == k then tablePop t k else e :: tablePop t k

/-- Whether the table has an entry under key `k`. -/
def tableHas : Table → Str → Bool
  | [], _ => false
  | e :: t, k => (e.1 == k) || tableHas t k

/-- The event field name. -/
def eventKey : Str := "Event".toList

/-- Embedding of the `Connection` protocol object: the carry-over buffer
(the single-element queue), the pending-Action table, the trace of
Messages forwarded to `factory.dispatch`, and the closed flag. -/
structure Connection where
  buffer : Str
  closed : Bool
  responses : Table
  dispatched : List Msg
deriving DecidableEq

/-- The routing step of `Connection.data_received` (manager.py lines
54-60) applied to one decoded Message: a Message whose identifier is in
the pending table goes to that Action's accumulation step, and the Action
is popped when accumulation reports completion; otherwise a Message with
an Event field is forwarded to `factory.dispatch`; otherwise it is
discarded.  The state is (pending table, dispatch trace). -/
def routeMessage : Table × List Msg → Msg → Table × List Msg
  | (rs, ds), m =>
    match tableGet rs (Msg.id m) with
    | some a =>
      let r := Action.add_message a m
      if r.2 then (tablePop (tableSet rs ((Msg.id m).getD []) r.1) r.1.id, ds)
      else (tableSet rs ((Msg.id m).getD []) r.1, ds)
    | none =>
      if Msg.hasField m eventKey then (rs, ds ++ [m])
      else (rs, ds)

/-- `Connection.data_received` after byte decoding: the carry-over buffer
is prepended, the text is split on the block delimiter, the last fragment
becomes the new buffer, and every complete block is stripped, decoded and
routed.  Also returns the sequence of decoded Messages. -/
def Connection.receiveText (st : Connection) (data : Str) : Connection × List Msg :=
  let parts := splitOnL blockDelim (st.buffer ++ data)
  let msgs := parts.dropLast.filterMap (fun b => Message.from_line (strip b))
  let rd := msgs.foldl routeMessage (st.responses, st.dispatched)
  (⟨parts.getLastD [], st.closed, rd.1, rd.2⟩, msgs)

/-- `bytes.decode(encoding, 'ignore')` for the default single-byte
encoding (`'ascii'`, per `getattr(self, 'encoding', 'ascii')`): invalid
bytes are dropped, valid ones map one-to-one to characters. -/
def decodeAscii (bs : List Nat) : Str :=
  bs.filterMap (fun b => if b < 128 then some (Char.ofNat b) else none)

/-- `Connection.data_received`: decode the chunk, reassemble and route. -/
def Connection.data_received (st : Connection) (bytes : List Nat) :
    Connection × List Msg :=
  Connection.receiveText st (decodeAscii bytes)

/-- Feeding a sequence of chunks to `Connection.data_received` one at a
time, collecting the decoded Messages in order. -/
def Connection.receiveChunks (st : Connection) :
    List (List Nat) → Connection × List Msg
  | [] => (st, [])
  | c :: cs =>
    let r1 := Connection.data_received st c
    let r2 := Connection.receiveChunks r1.1 cs
    (r2.1, r1.2 ++ r2.2)

lemma getLastD_append_of_ne_nil {α : Type} {l2 : List α} (l1 : List α)
    (h : l2 ≠ []) (x : α) : (l1 ++ l2).getLastD x = l2.getLastD x := by
  obtain ⟨y, hy⟩ : ∃ y, l2.getLast? = some y :=
    Option.isSome_iff_exists.mp (List.getLast?_isSome.mpr h)
  simp [List.getLastD_eq_getLast?, List.getLast?_append, hy]

/-- Splitting `receiveText`'s input in two processes the two halves in
sequence, with the carry-over buffer linking them. -/
lemma receiveText_append (st : Connection) (a b : Str) :
    Connection.receiveText st (a ++ b) =
      ((Connection.receiveText (Connection.receiveText st a).1 b).1,
       (Connection.receiveText st a).2
         ++ (Connection.receiveText (Connection.receiveText st a).1 b).2) := by
  have hsplit : splitOnL blockDelim (st.buffer ++ (a ++ b))
      = (splitOnL blockDelim (st.buffer ++ a)).dropLast
        ++ splitOnL blockDelim
            ((splitOnL blockDelim (st.buffer ++ a)).getLastD [] ++ b) := by
    rw [← List.append_assoc]
    exact splitOnL_append blockDelim (st.buffer ++ a) b
  have hQne := splitOnL_ne_nil blockDelim
    ((splitOnL blockDelim (st.buffer ++ a)).getLastD [] ++ b)
  simp only [Connection.receiveText, hsplit]
  rw [List.dropLast_append_of_ne_nil _ hQne]
  rw [getLastD_append_of_ne_nil _ hQne]
  rw [List.filterMap_append, List.foldl_append]

/-- A carry-over buffer produced by `receiveText` contains no complete
block, so feeding it to the splitter returns it whole. -/
lemma receiveText_buffer_stable (st : Connection) (a : Str) :
    splitOnL blockDelim ((Connection.receiveText st a).1.buffer)
      = [(Connection.receiveText st a).1.buffer] := by
  simp only [Connection.receiveText]
  exact splitOnL_getLastD_stable blockDelim (st.buffer ++ a)

lemma receiveChunks_eq_flatten : ∀ (chunks : List (List Nat)) (st : Connection),
    splitOnL blockDelim st.buffer = [st.buffer] →
    Connection.receiveChunks st chunks = Connection.data_received st chunks.flatten
  | [], st, h => by
    simp only [Connection.receiveChunks, List.flatten, Connection.data_received,
      decodeAscii, List.filterMap_nil, Connection.receiveText, List.append_nil, h]
    simp
  | c :: cs, st, h => by
    have hdec : decodeAscii ((c :: cs).flatten) = decodeAscii c ++ decodeAscii cs.flatten := by
      simp only [List.flatten_cons, decodeAscii]
      exact List.filterMap_append _ _ _
    have ihj : Connection.receiveChunks (Connection.data_received st c).1 cs
        = Connection.receiveText (Connection.data_received st c).1 (decodeAscii cs.flatten) := by
      have := receiveChunks_eq_flatten cs (Connection.data_received st c).1
        (receiveText_buffer_stable st (decodeAscii c))
      simpa [Connection.data_received] using this
    have hch : Connection.receiveChunks st (c :: cs)
        = ((Connection.receiveText (Connection.data_received st c).1
              (decodeAscii cs.flatten)).1,
           (Connection.data_received st c).2
             ++ (Connection.receiveText (Connection.data_received st c).1
                  (decodeAscii cs.flatten)).2) := by
      simp only [Connection.receiveChunks, ihj]
    rw [hch]
    simp only [Connection.data_received, hdec]
    rw [receiveText_append st (decodeAscii c) (decodeAscii cs.flatten)]

/-- C1: for every stream of protocol bytes and every way of splitting it
into chunks, feeding the chunks one at a time to
`Connection.data_received` produces exactly the same sequence of decoded
Messages (in order), the same final carry-over buffer, and the same
routing state, as feeding the whole stream as one chunk; partial blocks
are carried over in the buffer between calls. -/
theorem C1_chunk_invariance (cl : Bool) (rs : Table) (ds : List Msg)
    (chunks : List (List Nat)) :
    Connection.receiveChunks (Connection.mk [] cl rs ds) chunks
      = Connection.data_received (Connection.mk [] cl rs ds) chunks.flatten :=
  receiveChunks_eq_flatten chunks (Connection.mk [] cl rs ds) (splitOnL_nil blockDelim)

instance : Inhabited Msg := ⟨⟨[], none⟩⟩

instance : Inhabited Action := ⟨⟨[], false, []⟩⟩

lemma Action.add_message_id (a : Action) (m : Msg) :
    (Action.add_message a m).1.id = a.id := by
  simp only [Action.add_message]
  split <;> rfl

/-- The pending table is well-formed: every Action is stored under its own
identifier (the invariant maintained by `Connection.send`, which registers
each Action under `data.id`). -/
def TableWF (t : Table) : Prop :=
  ∀ e ∈ t, e.1 = e.2.id

instance (t : Table) : Decidable (TableWF t) := by
  unfold TableWF
  infer_instance

lemma tableHas_tablePop (t : Table) (k : Str) :
    tableHas (tablePop t k) k = false := by
  induction t with
  | nil => rfl
  | cons e t ih =>
    simp only [tablePop]
    cases he : (e.1 == k) with
    | true => simpa [he] using ih
    | false => simpa [tableHas, he] using ih

lemma tableGet_mem {t : Table} {k : Str} {a : Action}
    (h : tableGet t (some k) = some a) :
    ∃ e, e ∈ t ∧ e.1 = k ∧ e.2 = a := by
  induction t with
  | nil => simp [tableGet, tableGetK] at h
  | cons e t ih =>
    simp only [tableGet, tableGetK] at h ih
    cases he : (e.1 == k) with
    | true =>
      rw [he, if_pos rfl] at h
      exact ⟨e, List.mem_cons_self e t, eq_of_beq he, (Option.some.injEq _ _ ▸ h)⟩
    | false =>
      rw [he] at h
      simp only [Bool.false_eq_true, if_false] at h
      obtain ⟨e2, hmem, hk, ha⟩ := ih h
      exact ⟨e2, List.mem_cons_of_mem e hmem, hk, ha⟩

lemma tableHas_of_get {t : Table} {k : Str} {a : Action}
    (h : tableGet t (some k) = some a) : tableHas t k = true := by
  induction t with
  | nil => simp [tableGet, tableGetK] at h
  | cons e t ih =>
    simp only [tableGet, tableGetK] at h ih
    simp only [tableHas]
    cases he : (e.1 == k) with
    | true => simp
    | false =>
      rw [he] at h
      simp only [Bool.false_eq_true, if_false] at h
      simp [ih h]

lemma tableGet_tableSet_self (t : Table) (k : Str) (a : Action)
    (h : tableHas t k = true) :
    tableGet (tableSet t k a) (some k) = some a := by
  induction t with
  | nil => simp [tableHas] at h
  | cons e t ih =>
    simp only [tableSet]
    cases he : (e.1 == k) with
    | true =>
      simp only [he, if_true, tableGet, tableGetK, beq_self_eq_true]
    | false =>
      have h2 : tableHas t k = true := by
        simpa [tableHas, he] using h
      simp only [he, Bool.false_eq_true, if_false, tableGet, tableGetK]
      simpa [tableGet] using ih h2

/-- C2: the routing decision of `Connection.data_received` for each decoded
Message: an identifier matching a pending Action hands the Message to that
Action's accumulation step and removes the Action exactly when accumulation
reports completion (keeping the accumulated Action in the table otherwise),
without touching the dispatch trace; with no identifier match, a Message
with an Event field is forwarded to dispatch; a Message with neither is
discarded with no state change. -/
theorem C2_routing (rs : Table) (ds : List Msg) (m : Msg) :
    (∀ k a, Msg.id m = some k → tableGet rs (Msg.id m) = some a → TableWF rs →
      (routeMessage (rs, ds) m).2 = ds
      ∧ ((Action.add_message a m).2 = true →
          tableHas (routeMessage (rs, ds) m).1 k = false)
      ∧ ((Action.add_message a m).2 = false →
          tableGet (routeMessage (rs, ds) m).1 (some k)
            = some (Action.add_message a m).1))
    ∧ (tableGet rs (Msg.id m) = none → Msg.hasField m eventKey = true →
        routeMessage (rs, ds) m = (rs, ds ++ [m]))
    ∧ (tableGet rs (Msg.id m) = none → Msg.hasField m eventKey = false →
        routeMessage (rs, ds) m = (rs, ds)) := by
  refine ⟨?_, ?_, ?_⟩
  · intro k a hk ha hwf
    have ha' : tableGet rs (some k) = some a := hk ▸ ha
    have hkey : a.id = k := by
      obtain ⟨e, hmem, hek, hea⟩ := tableGet_mem ha'
      have hw := hwf e hmem
      rw [hea] at hw
      rw [← hw, hek]
    cases hdone : (Action.add_message a m).2 with
    | true =>
      have hred : routeMessage (rs, ds) m
          = (tablePop (tableSet rs k (Action.add_message a m).1)
              (Action.add_message a m).1.id, ds) := by
        simp [routeMessage, hk, ha', hdone]
      rw [hred]
      refine ⟨rfl, fun _ => ?_, fun hfalse => by simp [hdone] at hfalse⟩
      rw [Action.add_message_id, hkey]
      exact tableHas_tablePop _ k
    | false =>
      have hred : routeMessage (rs, ds) m
          = (tableSet rs k (Action.add_message a m).1, ds) := by
        simp [routeMessage, hk, ha', hdone]
      rw [hred]
      refine ⟨rfl, fun htrue => by simp [hdone] at htrue, fun _ => ?_⟩
      exact tableGet_tableSet_self rs k (Action.add_message a m).1 (tableHas_of_get ha')
  · intro hnone hev
    simp [routeMessage, hnone, hev]
  · intro hnone hev
    simp [routeMessage, hnone, hev]

def c2Action : Action := ⟨("42".toList), false, []⟩

def c2Table : Table := [(("42".toList), c2Action)]

def c2Msg : Msg :=
  ⟨[(("Response".toList), ("Success".toList)), (("ActionID".toList), ("42".toList))], none⟩

theorem C2_routing_witness :
    tableHas (routeMessage (c2Table, []) c2Msg).1 ("42".toList) = false :=
  ((C2_routing c2Table [] c2Msg).1 ("42".toList) c2Action (by decide) (by decide)
    (by decide)).2.1 (by decide)

/-- Fuel-driven worker for `globMatch`; every step shortens the pattern
or the string, so `p.length + s.length + 1` fuel always suffices and the
out-of-fuel branch is unreachable. -/
def globFuel : Nat → Str → Str → Bool
  | 0, _, _ => false
  | _ + 1, [], s => s.isEmpty
  | fuel + 1, '*' :: ps, [] => globFuel fuel ps []
  | fuel + 1, '*' :: ps, c :: cs =>
    globFuel fuel ps (c :: cs) || globFuel fuel ('*' :: ps) cs
  | _ + 1, '?' :: _, [] => false
  | fuel + 1, '?' :: ps, _ :: cs => globFuel fuel ps cs
  | _ + 1, _ :: _, [] => false
  | fuel + 1, p :: ps, c :: cs => (p == c) && globFuel fuel ps cs

/-- Glob matching as compiled by `re.compile(fnmatch.translate(pattern))`
and applied as an anchored full match of the event name: `*` matches any
run of characters, `?` any single character, every other character
itself (the glob constructs the subscriptions use). -/
def globMatch (p s : Str) : Bool := globFuel (p.length + s.length + 1) p s

/-- The callbacks registry, a `defaultdict(list)` keyed by the pattern
string. -/
abbrev CbTable := List (Str × List Nat)

/-- `defaultdict` read: the callback list under pattern `p`, `[]` when
absent. -/
def getCbs : CbTable → Str → List Nat
  | [], _ => []
  | e :: t, p => if e.1 == p then e.2 else getCbs t p

/-- `self.callbacks[pattern].append(callback)`. -/
def addCb : CbTable → Str → Nat → CbTable
  | [], p, c => [(p, [c])]
  | e :: t, p, c => if e.1 == p then (e.1, e.2 ++ [c]) :: t else e :: addCb t p c

/-- Embedding of the `Manager` object: the pattern registration list
(each entry's compiled matcher is a pure function of the pattern, applied
by `globMatch`), the callbacks table, the authentication flag, whether an
authentication completion handle is in flight, and the current protocol.
Callbacks are identified by numbers. -/
structure Manager where
  patterns : List Str
  callbacks : CbTable
  authenticated : Bool
  hasAuthFuture : Bool
  protocol : Option Connection
deriving DecidableEq

/-- The inner registrar closure `_register_event` of
`Manager.register_event`: appends the (pattern, compiled matcher) pair,
appends the callback under the pattern key, and returns the callback. -/
def Manager._register_event (p : Str) (cb : Nat) (mgr : Manager) : Manager × Nat :=
  ({ mgr with patterns := mgr.patterns ++ [p], callbacks := addCb mgr.callbacks p cb }, cb)

/-- `register_event(pattern, callback)` with the callback supplied:
applies the registrar directly. -/
def Manager.register_event_with (mgr : Manager) (p : Str) (cb : Nat) : Manager × Nat :=
  Manager._register_event p cb mgr

/-- `register_event(pattern)` with the callback omitted: returns the
registrar function, to be applied to a callback later (decorator use). -/
def Manager.register_event_deco (p : Str) : Nat → Manager → Manager × Nat :=
  fun cb mgr => Manager._register_event p cb mgr

/-- The callback invocations one matching registry entry produces in the
source's doubled loop (`for callback in self.callbacks[pattern]:` twice,
the inner one shadowing the outer): the callback list is traversed once
per element of itself, each call receiving `(event, manager)`. -/
def callBlock (cbs : List Nat) (ev : Msg) (mid : Nat) : List (Nat × Msg × Nat) :=
  (List.replicate cbs.length cbs).flatten.map (fun c => (c, ev, mid))

/-- The `for pattern, regexp in self.patterns:` loop of `Manager.dispatch`:
collects matched pattern strings in order and the trace of callback
invocations. -/
def dispatchLoop (cbs : CbTable) (ev : Msg) (mid : Nat) :
    List Str → List Str × List (Nat × Msg × Nat)
  | [] => ([], [])
  | p :: ps =>
    if globMatch p (Msg.event ev) then
      (p :: (dispatchLoop cbs ev mid ps).1,
       callBlock (getCbs cbs p) ev mid ++ (dispatchLoop cbs ev mid ps).2)
    else dispatchLoop cbs ev mid ps

/-- The result of `Manager.dispatch`: the returned list of matched
patterns, the trace of callback invocations `(callback, event, manager)`,
and the event object after `event.manager = self`. -/
structure DispatchOut where
  matched : List Str
  calls : List (Nat × Msg × Nat)
  event : Msg
deriving DecidableEq

/-- `Manager.dispatch(event)`: sets `event.manager`, iterates the pattern
registrations in order, fires callbacks of matching entries and returns
the matched pattern strings.  `mid` is the identity of the Manager object
(`self`). -/
def Manager.dispatch (mgr : Manager) (mid : Nat) (event : Msg) : DispatchOut :=
  ⟨(dispatchLoop mgr.callbacks { event with manager := some mid } mid mgr.patterns).1,
   (dispatchLoop mgr.callbacks { event with manager := some mid } mid mgr.patterns).2,
   { event with manager := some mid }⟩

lemma Msg.event_set_manager (m : Msg) (x : Option Nat) :
    Msg.event { m with manager := x } = Msg.event m := rfl

lemma dispatchLoop_matches (cbs : CbTable) (ev : Msg) (mid : Nat) :
    ∀ ps : List Str,
      (dispatchLoop cbs ev mid ps).1
        = ps.filter (fun p => globMatch p (Msg.event ev))
  | [] => rfl
  | p :: ps => by
    cases h : globMatch p (Msg.event ev) with
    | true =>
      simp [dispatchLoop, h, List.filter_cons, dispatchLoop_matches cbs ev mid ps]
    | false =>
      simp [dispatchLoop, h, List.filter_cons, dispatchLoop_matches cbs ev mid ps]

lemma getCbs_addCb (t : CbTable) (p : Str) (c : Nat) :
    getCbs (addCb t p c) p = getCbs t p ++ [c] := by
  induction t with
  | nil => simp [addCb, getCbs]
  | cons e t ih =>
    cases he : (e.1 == p) with
    | true =>
      have : e.1 = p := eq_of_beq he
      simp [addCb, getCbs, he, this]
    | false =>
      simp [addCb, getCbs, he, ih]

lemma dispatchLoop_calls_event (cbs : CbTable) (ev : Msg) (mid : Nat) :
    ∀ (ps : List Str) (c : Nat × Msg × Nat),
      c ∈ (dispatchLoop cbs ev mid ps).2 → c.2.1 = ev
  | [], c, h => absurd h (by simp [dispatchLoop])
  | p :: ps, c, h => by
    by_cases hg : globMatch p (Msg.event ev) = true
    · simp only [dispatchLoop, hg, if_true, List.mem_append] at h
      cases h with
      | inl h =>
        simp only [callBlock, List.mem_map] at h
        obtain ⟨x, -, hx⟩ := h
        rw [← hx]
      | inr h => exact dispatchLoop_calls_event cbs ev mid ps c h
    · simp only [dispatchLoop, hg, if_false] at h
      exact dispatchLoop_calls_event cbs ev mid ps c
        (by simpa [Bool.not_eq_true] using h)

def mgr0 : Manager := ⟨[], [], false, false, none⟩

def mgrPeer : Manager := (Manager.register_event_with mgr0 ("Peer*".toList) 1).1

def mgrPeer2 : Manager := (Manager.register_event_with mgrPeer ("Peer*".toList) 2).1

/-- The decoded form of the block `Event: PeerStatus`. -/
def evPeer : Msg := ⟨[(("Event".toList), ("PeerStatus".toList))], none⟩

/-- The decoded form of the block `Event: NoPeerStatus`. -/
def evNoPeer : Msg := ⟨[(("Event".toList), ("NoPeerStatus".toList))], none⟩

/-- C6: `Manager.dispatch` returns the ordered list of matched pattern
strings — generally, the registration list filtered by full glob match of
the event name — so a lone registration of `Peer*` yields `["Peer*"]` for
`PeerStatus` and `[]` for `NoPeerStatus`, and a pattern registered twice
appears twice. -/
theorem C6_dispatch_matched :
    (∀ (mgr : Manager) (mid : Nat) (e : Msg),
       (Manager.dispatch mgr mid e).matched
         = mgr.patterns.filter (fun p => globMatch p (Msg.event e)))
    ∧ (Manager.dispatch mgrPeer 0 evPeer).matched = [("Peer*".toList)]
    ∧ (Manager.dispatch mgrPeer 0 evNoPeer).matched = []
    ∧ (Manager.dispatch mgrPeer2 0 evPeer).matched
        = [("Peer*".toList), ("Peer*".toList)] := by
  refine ⟨?_, by decide, by decide, by decide⟩
  intro mgr mid e
  have h := dispatchLoop_matches mgr.callbacks { e with manager := some mid } mid
    mgr.patterns
  simpa [Manager.dispatch, Msg.event_set_manager] using h

/-- C3 (code bug): in the source's doubled dispatch loop, registering
`Peer*` twice (callbacks 1 and 2) and dispatching a `PeerStatus` event
invokes each callback four times — not once per matching registration:
the invocation trace is `[1,2,1,2,1,2,1,2]`. -/
theorem C3_dispatch_duplication :
    ((Manager.dispatch mgrPeer2 0 evPeer).calls.map (fun c => c.1))
      = [1, 2, 1, 2, 1, 2, 1, 2]
    ∧ ((Manager.dispatch mgrPeer2 0 evPeer).calls.map (fun c => c.1)).count 1 = 4 := by
  exact ⟨by decide, by decide⟩

/-- C10 (counterexample): `Manager.dispatch` does modify a decoded
Message — dispatching a freshly decoded `PeerStatus` event returns an
event object that differs from the input (its `manager` attribute has
been set). -/
theorem C10_dispatch_mutates_event :
    (Manager.dispatch mgrPeer 0 evPeer).event ≠ evPeer := by decide

/-- C10 (amended): no operation modifies a Message's field mapping after
construction; `Manager.dispatch` changes the event only by setting its
`manager` attribute to the dispatching Manager, and every callback
invocation receives the event with its fields unchanged. -/
theorem C10_fields_immutable :
    ∀ (mgr : Manager) (mid : Nat) (e : Msg),
      (Manager.dispatch mgr mid e).event = { e with manager := some mid }
      ∧ (Manager.dispatch mgr mid e).event.fields = e.fields
      ∧ ∀ c ∈ (Manager.dispatch mgr mid e).calls, c.2.1.fields = e.fields := by
  intro mgr mid e
  refine ⟨rfl, rfl, ?_⟩
  intro c hc
  have h : c.2.1 = { e with manager := some mid } :=
    dispatchLoop_calls_event mgr.callbacks { e with manager := some mid } mid
      mgr.patterns c hc
  rw [h]

theorem C10_fields_immutable_witness :
    ((1, ({ evPeer with manager := some 0 } : Msg), 0) : Nat × Msg × Nat).2.1.fields
      = evPeer.fields :=
  (C10_fields_immutable mgrPeer 0 evPeer).2.2 (1, { evPeer with manager := some 0 }, 0)
    (by decide)

/-- C8: `register_event` with the callback omitted returns the registrar
function; applying it to a callback has exactly the effect of the direct
call — it appends a registry entry for the pattern, records the callback
under the pattern key — and returns the callback unchanged. -/
theorem C8_register_event (p : Str) (f : Nat) (mgr : Manager) :
    Manager.register_event_deco p f mgr = Manager.register_event_with mgr p f
    ∧ (Manager.register_event_deco p f mgr).2 = f
    ∧ (Manager.register_event_deco p f mgr).1.patterns = mgr.patterns ++ [p]
    ∧ getCbs (Manager.register_event_deco p f mgr).1.callbacks p
        = getCbs mgr.callbacks p ++ [f]
    ∧ (Manager.register_event_deco p f mgr).1.authenticated = mgr.authenticated
    ∧ (Manager.register_event_deco p f mgr).1.protocol = mgr.protocol :=
  ⟨rfl, rfl, rfl, getCbs_addCb mgr.callbacks p f, rfl, rfl⟩

/-- The side effects `Connection.connection_lost` and `close` perform on
their collaborators: closing the transport, blocking the processing
context with `time.sleep(seconds)`, and calling `factory.connect()`. -/
inductive Effect where
  | transportClose : Effect
  | sleep : Nat → Effect
  | connect : Effect
deriving DecidableEq

/-- `Connection.close`: when not yet closed, close the transport and set
the closed flag; a no-op on an already-closed Connection. -/
def Connection.close (st : Connection) : Connection × List Effect :=
  if st.closed then (st, [])
  else ({ st with closed := true }, [Effect.transportClose])

/-- `Connection.connection_lost`: when not yet closed, close, wait two
seconds with `time.sleep(2)`, and reconnect via `self.factory.connect()`. -/
def Connection.connection_lost (st : Connection) : Connection × List Effect :=
  if st.closed then (st, [])
  else
    ((Connection.close st).1,
     (Connection.close st).2 ++ [Effect.sleep 2, Effect.connect])

/-- `Manager.close`: close the active protocol if one exists. -/
def Manager.close (mgr : Manager) : Manager × List Effect :=
  match mgr.protocol with
  | none => (mgr, [])
  | some p => ({ mgr with protocol := some (Connection.close p).1 }, (Connection.close p).2)

/-- C9: `Connection.close` is idempotent — a second close is a no-op with
no transport effect — and `Manager.close` is safe with no active
Connection (a no-op) while with an active Connection it closes exactly
that Connection. -/
theorem C9_close_idempotent :
    (∀ st : Connection,
       Connection.close (Connection.close st).1 = ((Connection.close st).1, []))
    ∧ (∀ st : Connection, ((Connection.close st).1).closed = true)
    ∧ (∀ (ps : List Str) (cb : CbTable) (au fu : Bool),
       Manager.close (Manager.mk ps cb au fu none) = (Manager.mk ps cb au fu none, []))
    ∧ (∀ (ps : List Str) (cb : CbTable) (au fu : Bool) (p : Connection),
       Manager.close (Manager.mk ps cb au fu (some p))
         = (Manager.mk ps cb au fu (some (Connection.close p).1), (Connection.close p).2))
    ∧ (∀ mgr : Manager,
       Manager.close (Manager.close mgr).1 = ((Manager.close mgr).1, [])) := by
  have hconn : ∀ st : Connection,
      Connection.close (Connection.close st).1 = ((Connection.close st).1, []) := by
    intro st
    by_cases h : st.closed <;> simp [Connection.close, h]
  refine ⟨hconn, ?_, ?_, ?_, ?_⟩
  · intro st
    by_cases h : st.closed <;> simp [Connection.close, h]
  · intro ps cb au fu
    rfl
  · intro ps cb au fu p
    rfl
  · intro mgr
    cases hp : mgr.protocol with
    | none => simp [Manager.close, hp]
    | some p => simp [Manager.close, hp, hconn p]

def c4Action : Action := ⟨("7".toList), false, []⟩

/-- An open Connection with one still-pending Action (identifier `7`). -/
def c4Conn : Connection := ⟨[], false, [(("7".toList), c4Action)], []⟩

/-- C4 (code bug): `Connection.connection_lost` never touches the pending
table — on a connection with a pending Action it closes, sleeps and
reconnects, leaving the Action pending (its completion handle is never
failed), contrary to the required connection-closed failure. -/
theorem C4_pending_left_unresolved :
    (∀ st : Connection,
       (Connection.connection_lost st).1.responses = st.responses)
    ∧ (Connection.connection_lost c4Conn).1.responses = [(("7".toList), c4Action)]
    ∧ (Connection.connection_lost c4Conn).2
        = [Effect.transportClose, Effect.sleep 2, Effect.connect] := by
  refine ⟨?_, by decide, by decide⟩
  intro st
  by_cases h : st.closed <;> simp [Connection.connection_lost, Connection.close, h]

/-- An open Connection losing its transport. -/
def c5Conn : Connection := ⟨[], false, [], []⟩

/-- C5 (code bug): on loss of an open connection, `connection_lost`
performs a synchronous `time.sleep(2)` before reconnecting — the
reconnect delay blocks the single processing context instead of being a
scheduled, cancellable timer. -/
theorem C5_blocking_sleep :
    (∀ (buf : Str) (rs : Table) (ds : List Msg),
       Effect.sleep 2 ∈ (Connection.connection_lost (Connection.mk buf false rs ds)).2)
    ∧ Effect.sleep 2 ∈ (Connection.connection_lost c5Conn).2 := by
  refine ⟨?_, by decide⟩
  intro buf rs ds
  simp [Connection.connection_lost, Connection.close]

/-- Modelled from the spec: the authentication part of
`Manager.connection_made` — when a username is configured, reset the
authenticated flag, send a Login Action built from the credentials and
register `login` on its completion handle; the Action sent is returned
(`none` when no credentials are configured). -/
def Manager.connection_made_auth (mgr : Manager) (username : Option Str)
    (secret : Str) : Manager × Option (List (Str × Str)) :=
  match username with
  | none => (mgr, none)
  | some u =>
    ({ mgr with authenticated := false, hasAuthFuture := true },
     some [(("Action".toList), ("Login".toList)),
           (("Username".toList), u),
           (("Secret".toList), secret)])

/-- `Manager.login(future)`: clear the in-flight handle and set the
authenticated flag to the resolved response's success derivation,
returning it. -/
def Manager.login (mgr : Manager) (resp : Msg) : Manager × Bool :=
  ({ mgr with authenticated := Msg.success resp, hasAuthFuture := false },
   Msg.success resp)

/-- The decoded form of the block `Response: Success`. -/
def respOk : Msg := ⟨[(("Response".toList), ("Success".toList))], none⟩

/-- The decoded form of the block `Response: Error`. -/
def respErr : Msg := ⟨[(("Response".toList), ("Error".toList))], none⟩

/-- C7: with credentials configured, connection establishment sends a
Login Action and marks an authentication handle in flight; its completion
runs `login`, which totally (never raising) sets the authenticated flag
to the response's success derivation — true exactly when the derivation
holds, as on `Response: Success`, and false otherwise, as on
`Response: Error`. -/
theorem C7_login (mgr mgr2 : Manager) (u s : Str) (resp : Msg) :
    (Manager.connection_made_auth mgr (some u) s).2
      = some [(("Action".toList), ("Login".toList)),
              (("Username".toList), u), (("Secret".toList), s)]
    ∧ (Manager.connection_made_auth mgr (some u) s).1.hasAuthFuture = true
    ∧ (Manager.connection_made_auth mgr (some u) s).1.authenticated = false
    ∧ (Manager.login mgr2 resp).1.authenticated = Msg.success resp
    ∧ (Manager.login mgr2 resp).2 = Msg.success resp
    ∧ (Manager.login mgr2 resp).1.hasAuthFuture = false
    ∧ Msg.success respOk = true
    ∧ Msg.success respErr = false :=
  ⟨rfl, rfl, rfl, rfl, rfl, rfl, by decide, by decide⟩

end Panoramisk
